import Mathlib

/-!
Verification of the dynamic tool registry of the referral-network analytics
platform (`src/core/tool_registry.py`).  The Python class `ToolRegistry` is
shallowly embedded: the YAML-parsed domain map becomes an association list
from domain names to `DomainConfig` records, the mutable registry object
becomes an explicit `Registry` state threaded through the operations, Python
exceptions become a `RegError` sum propagated in `Except`/`Option` results,
and the dynamic module-import mechanism (`importlib.import_module`) becomes
an explicit environment `Imports F` mapping module paths to either the
exports of the loaded module or an error message describing the failure.

The recursive dependency resolver `_resolve_dependencies` is embedded with a
fuel parameter so that it is structurally recursive (and hence kernel
computable); `registryFuel` supplies enough fuel, which is proved by
`enabledLoop_isSome`, making the fuel-exhaustion branch of
`getEnabledDomains` provably dead code.
-/

deriving instance DecidableEq for Except

namespace ToolRegistry

/-- Error taxonomy mirroring `src/core/exceptions.py`, plus `keyError` for
Python's built-in `KeyError` raised by direct dict indexing
(`self.domains[domain_name]` in `load_domains`); the latter is provably
unreachable from the public entry points. -/
inductive RegError where
  | configurationError (msg : String)
  | domainNotFoundError (msg : String)
  | toolNotFoundError (msg : String)
  | dependencyError (msg : String)
  | keyError (msg : String)
  deriving DecidableEq, Repr

/-- One domain's entry in the parsed `domains.yaml` map.  Optional fields
model YAML keys that may be absent: `domain_config.get('enabled', False)`,
`domain_config.get('depends_on', [])`, `domain_config.get('tools', [])` and
`domain_config.get('module', ...)` in the Python source.  A missing list
key defaults to the empty list, so `depends_on` and `tools` are embedded
directly as lists. -/
structure DomainConfig where
  enabled : Option Bool
  depends_on : List String
  tools : List String
  module : Option String
  deriving DecidableEq, Repr

/-- Python `dict` lookup over an insertion-ordered association list
(first binding of the key wins; a Python dict has at most one). -/
def alookup {α : Type} : List (String × α) → String → Option α
  | [], _ => none
  | (k', v) :: rest, k => if k' = k then some v else alookup rest k

/-- The `domains.yaml` domain map: an insertion-ordered dict. -/
abbrev DomainMap : Type := List (String × DomainConfig)

/-- `domain_config.get('enabled', False)`. -/
def enabledD (cfg : DomainConfig) : Bool := cfg.enabled.getD false

/-- A name is an enabled domain: it is a key of the map and its
configuration has a true `enabled` flag. -/
def isEnabled (domains : DomainMap) (name : String) : Bool :=
  match alookup domains name with
  | some cfg => enabledD cfg
  | none => false

/-- Keys of the domain map (`self.domains` keys). -/
def keys (domains : DomainMap) : List String := domains.map Prod.fst

/-- Dependency-list processing loop inside `_resolve_dependencies`
(`for dep in domain_config.get('depends_on', []): ...`).  The recursive
resolver call is passed in as `recur` so that this function is structurally
recursive on the dependency list.  The result is `none` on fuel exhaustion
of a nested call, `some (error e)` when a Python exception propagates, and
`some (ok (order, resolved))` on success, where `order` is the list extended
by the loop and `resolved` the updated resolved set (kept as a list in
chronological insertion order). -/
def resolveDepList (domains : DomainMap)
    (recur : String → List String → List String →
      Option (Except RegError (List String × List String)))
    (parent : String) :
    List String → List String → List String →
      Option (Except RegError (List String × List String))
  | [], resolved, _ => some (Except.ok ([], resolved))
  | dep :: rest, resolved, visiting =>
    if (alookup domains dep).isNone then
      some (Except.error (RegError.dependencyError
        ("Domain '" ++ parent ++ "' depends on unknown domain: " ++ dep)))
    else
      match recur dep resolved visiting with
      | none => none
      | some (Except.error e) => some (Except.error e)
      | some (Except.ok (order₁, resolved₁)) =>
        match resolveDepList domains recur parent rest resolved₁ visiting with
        | none => none
        | some (Except.error e) => some (Except.error e)
        | some (Except.ok (order₂, resolved₂)) =>
          some (Except.ok (order₁ ++ order₂, resolved₂))

/-- `ToolRegistry._resolve_dependencies`, with a fuel bound on recursion
depth.  On success the returned pair is (the order contributed by this
call, the updated resolved set).  The `visiting` set behaves like the
Python one on the success path (every addition is removed again); on the
error path the whole resolution aborts, so the polluted sets are never
observed, and they are not returned. -/
def resolveDependencies (domains : DomainMap) :
    Nat → String → List String → List String →
      Option (Except RegError (List String × List String))
  | 0, _, _, _ => none
  | fuel + 1, domainName, resolved, visiting =>
    if domainName ∈ resolved then some (Except.ok ([], resolved))
    else if domainName ∈ visiting then
      some (Except.error (RegError.dependencyError
        ("Circular dependency detected: " ++ domainName)))
    else
      match alookup domains domainName with
      | none => some (Except.error (RegError.domainNotFoundError
          ("Domain not found: " ++ domainName)))
      | some cfg =>
        if enabledD cfg = false then some (Except.ok ([], resolved))
        else
          match resolveDepList domains (resolveDependencies domains fuel)
              domainName cfg.depends_on resolved (domainName :: visiting) with
          | none => none
          | some (Except.error e) => some (Except.error e)
          | some (Except.ok (order, resolved')) =>
            some (Except.ok (order ++ [domainName], resolved' ++ [domainName]))

/-- The loop of `get_enabled_domains` over `self.domains.items()`, threading
the shared `resolved` set and starting each top-level resolution with an
empty `visiting` set (the Python `visiting` set is empty again whenever a
top-level call returns normally). -/
def enabledLoop (domains : DomainMap) (fuel : Nat) :
    List (String × DomainConfig) → List String →
      Option (Except RegError (List String × List String))
  | [], resolved => some (Except.ok ([], resolved))
  | (name, cfg) :: rest, resolved =>
    if enabledD cfg = true then
      match resolveDependencies domains fuel name resolved [] with
      | none => none
      | some (Except.error e) => some (Except.error e)
      | some (Except.ok (order₁, resolved₁)) =>
        match enabledLoop domains fuel rest resolved₁ with
        | none => none
        | some (Except.error e) => some (Except.error e)
        | some (Except.ok (order₂, resolved₂)) =>
          some (Except.ok (order₁ ++ order₂, resolved₂))
    else enabledLoop domains fuel rest resolved

/-- Duplicate removal preserving first occurrence (the `seen` loop at the
end of `get_enabled_domains`). -/
def dedupFirstAux (seen : List String) : List String → List String
  | [] => []
  | x :: rest =>
    if x ∈ seen then dedupFirstAux seen rest
    else x :: dedupFirstAux (x :: seen) rest

/-- Duplicate removal preserving first occurrence. -/
def dedupFirst (l : List String) : List String := dedupFirstAux [] l

/-- Fuel that suffices for any resolution over this domain map: nesting
depth of `_resolve_dependencies` is bounded by the number of enabled
domains, each recursion level pushing a fresh enabled key onto `visiting`.
Sufficiency is proved by `enabledLoop_isSome`. -/
def registryFuel (domains : DomainMap) : Nat := domains.length + 1

/-- `ToolRegistry.get_enabled_domains`.  The `none` (fuel-exhaustion) branch
is dead code by `enabledLoop_isSome`. -/
def getEnabledDomains (domains : DomainMap) : Except RegError (List String) :=
  match enabledLoop domains (registryFuel domains) domains [] with
  | none => Except.error (RegError.dependencyError "fuel exhausted (unreachable)")
  | some (Except.error e) => Except.error e
  | some (Except.ok (order, _)) => Except.ok (dedupFirst order)

/-- A tool definition record `{name, description, parameters}` as produced
by a domain module's `TOOL_DEFINITIONS` list (spec §6); `parameters` is the
opaque JSON-schema blob. -/
structure ToolDef where
  name : String
  description : String
  parameters : String
  deriving DecidableEq, Repr

/-- The `{type: "function", function: {...}}` envelope built by
`get_openai_tools`. -/
structure OpenAITool where
  type : String
  function : ToolDef
  deriving DecidableEq, Repr

/-- What `importlib.import_module` yields for a domain's tools module:
the optional `TOOLS` name-to-callable dict (insertion ordered) and the
optional `TOOL_DEFINITIONS` list, each absent when the module lacks the
attribute (`hasattr` checks in `load_domains`).  `F` is the type of tool
callables, kept abstract. -/
structure ModuleExports (F : Type) where
  TOOLS : Option (List (String × F))
  TOOL_DEFINITIONS : Option (List ToolDef)
  deriving DecidableEq, Repr

/-- The dynamic import mechanism: maps a module path to the module's
exports, or to the `ImportError` message when the import fails. -/
def Imports (F : Type) : Type := String → Except String (ModuleExports F)

/-- `ToolRegistry` state: the parsed domain map (`self.domains`), the tool
table (`self._tools`, an insertion-ordered dict), the definition list
(`self._tool_definitions`) and the `self._loaded` flag. -/
structure Registry (F : Type) where
  domains : DomainMap
  tools : List (String × F)
  tool_definitions : List ToolDef
  loaded : Bool
  deriving DecidableEq, Repr

/-- `module_path = domain_config.get('module', f'src.domains.{domain_name}')`. -/
def moduleBase (name : String) (cfg : DomainConfig) : String :=
  cfg.module.getD ("src.domains." ++ name)

/-- The path actually imported: `f"{module_path}.tools"`. -/
def modulePath (name : String) (cfg : DomainConfig) : String :=
  moduleBase name cfg ++ ".tools"

/-- Python dict assignment `tbl[k] = v`: overwrite in place if the key is
present (keeping its insertion position), else append. -/
def insertTool {F : Type} : List (String × F) → String → F → List (String × F)
  | [], k, v => [(k, v)]
  | (k', v') :: rest, k, v =>
    if k' = k then (k, v) :: rest else (k', v') :: insertTool rest k v

/-- The `TOOLS` merge loop of `load_domains`: for each exported
`(tool_name, tool_func)`, register it iff the name is in the domain's
configured tool allow-list. -/
def addTools {F : Type} (configured : List String) :
    List (String × F) → List (String × F) → List (String × F)
  | [], tbl => tbl
  | (n, f) :: rest, tbl =>
    addTools configured rest (if n ∈ configured then insertTool tbl n f else tbl)

/-- The per-domain loop of `load_domains` over the resolved order, threading
the mutable registry.  Returns the registry as mutated so far together with
the exception, if any, that aborted the loop — mirroring that Python
mutations performed before the raise persist on the instance. -/
def loadDomainsLoop {F : Type} (imports : Imports F) (domains : DomainMap) :
    List String → Registry F → Registry F × Option RegError
  | [], reg => (reg, none)
  | name :: rest, reg =>
    match alookup domains name with
    | none => (reg, some (RegError.keyError name))
    | some cfg =>
      match imports (modulePath name cfg) with
      | Except.error cause =>
        (reg, some (RegError.configurationError
          ("Failed to import domain '" ++ name ++ "' from "
            ++ moduleBase name cfg ++ ": " ++ cause)))
      | Except.ok m =>
        let tools₁ := match m.TOOLS with
          | some ts => addTools cfg.tools ts reg.tools
          | none => reg.tools
        let defs₁ := match m.TOOL_DEFINITIONS with
          | some ds => reg.tool_definitions
              ++ ds.filter (fun d => decide (d.name ∈ cfg.tools))
          | none => reg.tool_definitions
        loadDomainsLoop imports domains rest
          { reg with tools := tools₁, tool_definitions := defs₁ }

/-- `ToolRegistry.load_domains`.  The result pairs the (possibly partially
mutated) registry with the exception raised, if any. -/
def loadDomains {F : Type} (imports : Imports F) (reg : Registry F) :
    Registry F × Option RegError :=
  if reg.loaded then (reg, none)
  else
    match getEnabledDomains reg.domains with
    | Except.error e => (reg, some e)
    | Except.ok enabledDomains =>
      match loadDomainsLoop imports reg.domains enabledDomains reg with
      | (reg', some e) => (reg', some e)
      | (reg', none) => ({ reg' with loaded := true }, none)

/-- `ToolRegistry.get_all_tools`: lazy-loads, then returns a copy of the
tool table. -/
def getAllTools {F : Type} (imports : Imports F) (reg : Registry F) :
    Registry F × Except RegError (List (String × F)) :=
  if reg.loaded = false then
    match loadDomains imports reg with
    | (reg', some e) => (reg', Except.error e)
    | (reg', none) => (reg', Except.ok reg'.tools)
  else (reg, Except.ok reg.tools)

/-- `ToolRegistry.get_tool`: lazy-loads, then looks the name up in the tool
table, raising `ToolNotFoundError` if absent. -/
def getTool {F : Type} (imports : Imports F) (reg : Registry F) (name : String) :
    Registry F × Except RegError F :=
  if reg.loaded = false then
    match loadDomains imports reg with
    | (reg', some e) => (reg', Except.error e)
    | (reg', none) =>
      match alookup reg'.tools name with
      | none => (reg', Except.error (RegError.toolNotFoundError ("Tool not found: " ++ name)))
      | some f => (reg', Except.ok f)
  else
    match alookup reg.tools name with
    | none => (reg, Except.error (RegError.toolNotFoundError ("Tool not found: " ++ name)))
    | some f => (reg, Except.ok f)

/-- `ToolRegistry.get_tool_definitions`: lazy-loads, then returns a copy of
the definition list. -/
def getToolDefinitions {F : Type} (imports : Imports F) (reg : Registry F) :
    Registry F × Except RegError (List ToolDef) :=
  if reg.loaded = false then
    match loadDomains imports reg with
    | (reg', some e) => (reg', Except.error e)
    | (reg', none) => (reg', Except.ok reg'.tool_definitions)
  else (reg, Except.ok reg.tool_definitions)

/-- The envelope built for each definition by `get_openai_tools`. -/
def wrapOpenai (d : ToolDef) : OpenAITool :=
  { type := "function"
    function := { name := d.name, description := d.description, parameters := d.parameters } }

/-- `ToolRegistry.get_openai_tools`: wraps each definition returned by
`get_tool_definitions` in the function-calling envelope. -/
def getOpenaiTools {F : Type} (imports : Imports F) (reg : Registry F) :
    Registry F × Except RegError (List OpenAITool) :=
  match getToolDefinitions imports reg with
  | (reg', Except.error e) => (reg', Except.error e)
  | (reg', Except.ok defs) => (reg', Except.ok (defs.map wrapOpenai))

/-- `ToolRegistry.list_tools`: lazy-loads, then lists the tool-table keys. -/
def listTools {F : Type} (imports : Imports F) (reg : Registry F) :
    Registry F × Except RegError (List String) :=
  if reg.loaded = false then
    match loadDomains imports reg with
    | (reg', some e) => (reg', Except.error e)
    | (reg', none) => (reg', Except.ok (reg'.tools.map Prod.fst))
  else (reg, Except.ok (reg.tools.map Prod.fst))

/-- `ToolRegistry.get_domain_info`: reads the parsed configuration directly,
without triggering a load. -/
def getDomainInfo {F : Type} (reg : Registry F) (name : String) :
    Except RegError DomainConfig :=
  match alookup reg.domains name with
  | none => Except.error (RegError.domainNotFoundError ("Domain not found: " ++ name))
  | some cfg => Except.ok cfg

/-- Position of the first occurrence of a name in a list (used to state
"appears strictly after"). -/
def idxOf : List String → String → Nat
  | [], _ => 0
  | x :: rest, a => if x = a then 0 else idxOf rest a + 1

/-- Dependency edge of the configured graph: `e` occurs in the
`depends_on` list of the configuration found for `d`. -/
def depEdge (domains : DomainMap) (d e : String) : Prop :=
  ∃ cfg, alookup domains d = some cfg ∧ e ∈ cfg.depends_on

/-- Dependency edge restricted to enabled domains. -/
def depRel (domains : DomainMap) (d e : String) : Prop :=
  isEnabled domains d = true ∧ isEnabled domains e = true ∧ depEdge domains d e

/-- The `depends_on` graph restricted to enabled domains is acyclic. -/
def Acyclic (domains : DomainMap) : Prop :=
  ∀ d, ¬ Relation.TransGen (depRel domains) d d

/-- Every dependency name mentioned anywhere in the map exists in the map. -/
def DepsExist (domains : DomainMap) : Prop :=
  ∀ p ∈ domains, ∀ e ∈ p.2.depends_on, e ∈ keys domains

/-- The dependencies of the configuration of `x` all exist in the map
(established for every domain that completed resolution, since the
dependency loop checks membership before recursing). -/
def DepsCheckedAt (domains : DomainMap) (x : String) : Prop :=
  ∀ cfg, alookup domains x = some cfg → ∀ e ∈ cfg.depends_on, e ∈ keys domains

/-- Invariant of the `resolved` set, kept as a list in chronological
insertion order: no duplicates, only enabled domains, and every member's
enabled dependencies were inserted strictly earlier. -/
structure ResInv (domains : DomainMap) (res : List String) : Prop where
  nodup : res.Nodup
  mem_enabled : ∀ x ∈ res, isEnabled domains x = true
  depsBefore : ∀ d e, d ∈ res → depRel domains d e → e ∈ res ∧ idxOf res e < idxOf res d

/-- The `visiting` set as a recursion stack, most recent first: every
element is enabled, and each element was pushed while processing the
dependencies of the next one, so consecutive elements are joined by an
enabled dependency edge. -/
inductive VChain (domains : DomainMap) : List String → Prop where
  | nil : VChain domains []
  | single (a : String) (ha : isEnabled domains a = true) : VChain domains [a]
  | cons (a b : String) (l : List String) (hab : depRel domains b a)
      (h : VChain domains (b :: l)) : VChain domains (a :: b :: l)

/-- Keys of the enabled entries of the domain map. -/
def enabledKeys (domains : DomainMap) : List String :=
  (domains.filter (fun p => enabledD p.2)).map Prod.fst

/-- Number of enabled keys not on the visiting stack: an upper bound on the
remaining recursion depth of the resolver. -/
def countFree (domains : DomainMap) (visiting : List String) : Nat :=
  ((enabledKeys domains).filter (fun x => decide (x ∉ visiting))).length

/-- Pointwise equivalence of domain-map entries as far as the resolver is
concerned: same key, same effective enabled flag, same dependency list. -/
def cfgEquiv (p q : String × DomainConfig) : Prop :=
  p.1 = q.1 ∧ enabledD p.2 = enabledD q.2 ∧ p.2.depends_on = q.2.depends_on

/-- The domain map with every entry named `name` forced to `enabled: false`. -/
def setEnabledFalse (domains : DomainMap) (name : String) : DomainMap :=
  domains.map (fun p =>
    if p.1 = name then (p.1, { p.2 with enabled := some false }) else p)

/-- The module imported for this domain contributes no tool named `X`:
either the import fails, or each optional export structure lacks `X`. -/
def moduleLacks {F : Type} (imports : Imports F) (name : String) (cfg : DomainConfig)
    (X : String) : Bool :=
  match imports (modulePath name cfg) with
  | Except.error _ => true
  | Except.ok m =>
    (match m.TOOLS with
     | none => true
     | some ts => decide (X ∉ ts.map Prod.fst)) &&
    (match m.TOOL_DEFINITIONS with
     | none => true
     | some ds => decide (∀ d ∈ ds, d.name ≠ X))

/-- The base/dependent domain map of the spec's first example scenario. -/
def exampleChain : DomainMap :=
  [("base", ⟨some true, [], [], none⟩), ("dependent", ⟨some true, ["base"], [], none⟩)]

/-- A two-domain dependency cycle (the spec's second example scenario). -/
def exampleCycle : DomainMap :=
  [("a", ⟨some true, ["b"], [], none⟩), ("b", ⟨some true, ["a"], [], none⟩)]

/-- Configuration of an enabled domain depending on a missing name. -/
def exampleMissingCfg : DomainConfig := ⟨some true, ["missing"], [], none⟩

/-- An enabled domain depending on a name absent from the map. -/
def exampleMissing : DomainMap := [("a", exampleMissingCfg)]

/-- A map whose first entry lacks the `enabled` key entirely. -/
def exampleNoEnabled : DomainMap :=
  [("x", ⟨none, [], [], none⟩), ("y", ⟨some true, [], [], none⟩)]

/-- Two enabled, independent domains; domain a allow-lists only "t". -/
def exampleDomains : DomainMap :=
  [("a", ⟨some true, [], ["t"], none⟩), ("b", ⟨some true, [], [], none⟩)]

/-- A freshly constructed registry over `exampleDomains`. -/
def exampleReg : Registry Nat := ⟨exampleDomains, [], [], false⟩

/-- Import environment where domain a's module imports fine (exporting one
allow-listed and one non-allow-listed tool) but domain b's import fails. -/
def examplePartialImports : Imports Nat := fun p =>
  if p = "src.domains.a.tools" then
    Except.ok ⟨some [("t", 1), ("secret", 2)], some [⟨"t", "d", "p"⟩]⟩
  else Except.error "No module named b"

/-- Import environment where every import succeeds, exporting tools "t" and
"secret" with matching definitions. -/
def exampleOkImports : Imports Nat := fun _ =>
  Except.ok ⟨some [("t", 1), ("secret", 2)],
    some [⟨"t", "d", "p"⟩, ⟨"secret", "d2", "p2"⟩]⟩

/-- Registry state after a successful load of `exampleReg`. -/
def exampleLoaded : Registry Nat := (loadDomains exampleOkImports exampleReg).1

/-- A loaded registry carrying one tool definition. -/
def exampleDefsReg : Registry Nat :=
  ⟨[], [("n", 7)], [⟨"n", "doc", "params"⟩], true⟩

theorem alookup_mem {α : Type} {l : List (String × α)} {k : String} {v : α}
    (h : alookup l k = some v) : (k, v) ∈ l := by
  induction l with
  | nil => simp [alookup] at h
  | cons p rest ih =>
    obtain ⟨k', v'⟩ := p
    by_cases hk : k' = k
    · subst hk
      simp [alookup] at h
      subst h
      exact List.mem_cons_self _ _
    · simp only [alookup, if_neg hk] at h
      exact List.mem_cons_of_mem _ (ih h)

theorem mem_keys_iff {domains : DomainMap} {k : String} :
    k ∈ keys domains ↔ (alookup domains k).isSome := by
  induction domains with
  | nil => simp [keys, alookup]
  | cons p rest ih =>
    obtain ⟨k', v'⟩ := p
    by_cases hk : k' = k
    · subst hk; simp [keys, alookup]
    · simp only [keys, List.map_cons, List.mem_cons, alookup, if_neg hk]
      constructor
      · rintro (h | h)
        · exact absurd h.symm hk
        · exact ih.mp h
      · intro h
        exact Or.inr (ih.mpr h)

theorem isEnabled_iff {domains : DomainMap} {name : String} :
    isEnabled domains name = true ↔
      ∃ cfg, alookup domains name = some cfg ∧ enabledD cfg = true := by
  unfold isEnabled
  cases h : alookup domains name <;> simp

theorem isEnabled_mem_keys {domains : DomainMap} {name : String}
    (h : isEnabled domains name = true) : name ∈ keys domains := by
  obtain ⟨cfg, hcfg, -⟩ := isEnabled_iff.mp h
  exact mem_keys_iff.mpr (by simp [hcfg])

theorem idxOf_lt_length {l : List String} {a : String} (h : a ∈ l) :
    idxOf l a < l.length := by
  induction l with
  | nil => simp at h
  | cons x rest ih =>
    by_cases hx : x = a
    · simp [idxOf, hx]
    · have hmem : a ∈ rest := by
        rcases List.mem_cons.mp h with h' | h'
        · exact absurd h'.symm hx
        · exact h'
      simp only [idxOf, if_neg hx, List.length_cons]
      exact Nat.succ_lt_succ (ih hmem)

theorem idxOf_append_left {l : List String} (l' : List String) {a : String} (h : a ∈ l) :
    idxOf (l ++ l') a = idxOf l a := by
  induction l with
  | nil => simp at h
  | cons x rest ih =>
    by_cases hx : x = a
    · simp [idxOf, hx]
    · have hmem : a ∈ rest := by
        rcases List.mem_cons.mp h with h' | h'
        · exact absurd h'.symm hx
        · exact h'
      simp [idxOf, hx, ih hmem]

theorem idxOf_append_right {l : List String} {a : String} (h : a ∉ l) :
    idxOf (l ++ [a]) a = l.length := by
  induction l with
  | nil => simp [idxOf]
  | cons x rest ih =>
    have hx : x ≠ a := fun hxa => h (hxa ▸ List.mem_cons_self _ _)
    have hrest : a ∉ rest := fun hr => h (List.mem_cons_of_mem _ hr)
    simp [idxOf, hx, ih hrest]

theorem nodup_append_singleton {l : List String} {a : String}
    (h1 : l.Nodup) (h2 : a ∉ l) : (l ++ [a]).Nodup := by
  rw [List.nodup_append]
  refine ⟨h1, List.nodup_singleton a, ?_⟩
  intro x hx hx'
  simp only [List.mem_singleton] at hx'
  subst hx'
  exact h2 hx

theorem dedupFirstAux_eq_self {l : List String} :
    ∀ seen, (∀ x ∈ l, x ∉ seen) → l.Nodup → dedupFirstAux seen l = l := by
  induction l with
  | nil => intro seen _ _; rfl
  | cons x rest ih =>
    intro seen hdisj hnd
    have hx : x ∉ seen := hdisj x (List.mem_cons_self _ _)
    have hnd' := List.nodup_cons.mp hnd
    simp only [dedupFirst, dedupFirstAux, if_neg hx]
    rw [ih (x :: seen) ?_ hnd'.2]
    intro y hy
    simp only [List.mem_cons, not_or]
    exact ⟨fun hyx => hnd'.1 (hyx ▸ hy), hdisj y (List.mem_cons_of_mem _ hy)⟩

theorem dedupFirst_eq_self {l : List String} (h : l.Nodup) : dedupFirst l = l :=
  dedupFirstAux_eq_self [] (by simp) h

theorem vchain_enabled {domains : DomainMap} {l : List String}
    (h : VChain domains l) : ∀ x ∈ l, isEnabled domains x = true := by
  induction h with
  | nil => simp
  | single a ha => simp [ha]
  | cons a b l hab _ ih =>
    intro x hx
    rcases List.mem_cons.mp hx with h' | h'
    · subst h'
      exact hab.2.1
    · exact ih x h'

theorem vchain_reach {domains : DomainMap} {a : String} {l : List String}
    (h : VChain domains (a :: l)) :
    ∀ x ∈ l, Relation.TransGen (depRel domains) x a := by
  generalize hl : a :: l = m at h
  induction h generalizing a l with
  | nil => simp at hl
  | single b _ =>
    obtain ⟨rfl, rfl⟩ : b = a ∧ ([] : List String) = l := by
      constructor <;> injection hl <;> simp_all
    simp
  | cons c b m hcb htail ih =>
    obtain ⟨rfl, rfl⟩ : c = a ∧ b :: m = l := by
      constructor <;> injection hl <;> simp_all
    intro x hx
    rcases List.mem_cons.mp hx with h' | h'
    · exact h' ▸ Relation.TransGen.single hcb
    · exact (ih rfl x h').tail hcb

theorem resInv_append {domains : DomainMap} {res : List String} {name : String}
    (hinv : ResInv domains res) (hen : isEnabled domains name = true)
    (hnot : name ∉ res)
    (hdeps : ∀ e, depRel domains name e → e ∈ res) :
    ResInv domains (res ++ [name]) := by
  refine ⟨nodup_append_singleton hinv.nodup hnot, ?_, ?_⟩
  · intro x hx
    rcases List.mem_append.mp hx with h' | h'
    · exact hinv.mem_enabled x h'
    · simp only [List.mem_singleton] at h'
      exact h' ▸ hen
  · intro d e hd hrel
    rcases List.mem_append.mp hd with h' | h'
    · obtain ⟨he, hlt⟩ := hinv.depsBefore d e h' hrel
      refine ⟨List.mem_append.mpr (Or.inl he), ?_⟩
      rw [idxOf_append_left [name] he, idxOf_append_left [name] h']
      exact hlt
    · simp only [List.mem_singleton] at h'
      subst h'
      have he : e ∈ res := hdeps e hrel
      refine ⟨List.mem_append.mpr (Or.inl he), ?_⟩
      rw [idxOf_append_left [d] he, idxOf_append_right hnot]
      exact idxOf_lt_length he

theorem resolveDepList_success {domains : DomainMap}
    {recur : String → List String → List String →
      Option (Except RegError (List String × List String))}
    {visiting : List String}
    (hrec : ∀ dep resolved order res',
      recur dep resolved visiting = some (Except.ok (order, res')) →
        res' = resolved ++ order ∧
        (∀ x ∈ order, x ∉ visiting) ∧
        (∀ x ∈ order, DepsCheckedAt domains x) ∧
        (isEnabled domains dep = true → dep ∈ res') ∧
        (ResInv domains resolved → ResInv domains res')) :
    ∀ deps parent resolved order res',
      resolveDepList domains recur parent deps resolved visiting
          = some (Except.ok (order, res')) →
        res' = resolved ++ order ∧
        (∀ x ∈ order, x ∉ visiting) ∧
        (∀ x ∈ order, DepsCheckedAt domains x) ∧
        (∀ dep ∈ deps, dep ∈ keys domains) ∧
        (∀ dep ∈ deps, isEnabled domains dep = true → dep ∈ res') ∧
        (ResInv domains resolved → ResInv domains res') := by
  intro deps
  induction deps with
  | nil =>
    intro parent resolved order res' h
    simp only [resolveDepList, Option.some.injEq, Except.ok.injEq, Prod.mk.injEq] at h
    obtain ⟨h1, h2⟩ := h
    subst h1
    subst h2
    simp
  | cons dep rest ih =>
    intro parent resolved order res' h
    simp only [resolveDepList] at h
    split at h
    · simp at h
    · rename_i hnone
      split at h
      · simp at h
      · simp at h
      · rename_i o₁ r₁ hr
        split at h
        · simp at h
        · simp at h
        · rename_i o₂ r₂ hrest
          simp only [Option.some.injEq, Except.ok.injEq, Prod.mk.injEq] at h
          obtain ⟨h1, h2⟩ := h
          subst h1
          subst h2
          obtain ⟨a1, a2, a3, a4, a5⟩ := hrec dep resolved o₁ r₁ hr
          obtain ⟨b1, b2, b3, b4, b5, b6⟩ := ih parent r₁ o₂ r₂ hrest
          have hne : ¬ alookup domains dep = none := by
            simpa [Option.isNone_iff_eq_none] using hnone
          have hkey : dep ∈ keys domains :=
            mem_keys_iff.mpr (Option.ne_none_iff_isSome.mp hne)
          refine ⟨?_, ?_, ?_, ?_, ?_, ?_⟩
          · rw [b1, a1, List.append_assoc]
          · intro x hx
            rcases List.mem_append.mp hx with h' | h'
            · exact a2 x h'
            · exact b2 x h'
          · intro x hx
            rcases List.mem_append.mp hx with h' | h'
            · exact a3 x h'
            · exact b3 x h'
          · intro d hd
            rcases List.mem_cons.mp hd with h' | h'
            · exact h' ▸ hkey
            · exact b4 d h'
          · intro d hd hen
            rcases List.mem_cons.mp hd with h' | h'
            · subst h'
              rw [b1]
              exact List.mem_append.mpr (Or.inl (a4 hen))
            · exact b5 d h' hen
          · intro hinv
            exact b6 (a5 hinv)

theorem resolveDependencies_success {domains : DomainMap} :
    ∀ fuel name resolved visiting order res',
      resolveDependencies domains fuel name resolved visiting
          = some (Except.ok (order, res')) →
        res' = resolved ++ order ∧
        (∀ x ∈ order, x ∉ visiting) ∧
        (∀ x ∈ order, DepsCheckedAt domains x) ∧
        (isEnabled domains name = true → name ∈ res') ∧
        (ResInv domains resolved → ResInv domains res') := by
  intro fuel
  induction fuel with
  | zero =>
    intro name resolved visiting order res' h
    simp [resolveDependencies] at h
  | succ fuel ih =>
    intro name resolved visiting order res' h
    simp only [resolveDependencies] at h
    split at h
    · rename_i hres
      simp only [Option.some.injEq, Except.ok.injEq, Prod.mk.injEq] at h
      obtain ⟨h1, h2⟩ := h
      subst h1
      subst h2
      exact ⟨by simp, by simp, by simp, fun _ => hres, fun hinv => hinv⟩
    · rename_i hres
      split at h
      · simp at h
      · rename_i hvis
        split at h
        · simp at h
        · rename_i cfg hlk
          split at h
          · rename_i hdis
            simp only [Option.some.injEq, Except.ok.injEq, Prod.mk.injEq] at h
            obtain ⟨h1, h2⟩ := h
            subst h1
            subst h2
            refine ⟨by simp, by simp, by simp, ?_, fun hinv => hinv⟩
            intro hen
            obtain ⟨cfg', hlk', hen'⟩ := isEnabled_iff.mp hen
            rw [hlk] at hlk'
            injection hlk' with hlk'
            subst hlk'
            rw [hdis] at hen'
            cases hen'
          · rename_i hdis
            have hen : isEnabled domains name = true := by
              simp only [isEnabled, hlk]
              exact Bool.not_eq_false _ |>.mp hdis
            split at h
            · simp at h
            · simp at h
            · rename_i o r hdl
              simp only [Option.some.injEq, Except.ok.injEq, Prod.mk.injEq] at h
              obtain ⟨h1, h2⟩ := h
              subst h1
              subst h2
              have hlist := resolveDepList_success
                (fun dep resolved' order' res'' h' =>
                  ih dep resolved' (name :: visiting) order' res'' h')
                cfg.depends_on name resolved o r hdl
              obtain ⟨b1, b2, b3, b4, b5, b6⟩ := hlist
              have hnotin_o : name ∉ o := by
                intro hmem
                exact b2 name hmem (List.mem_cons_self _ _)
              have hnot_r : name ∉ r := by
                rw [b1]
                intro hmem
                rcases List.mem_append.mp hmem with h' | h'
                · exact hres h'
                · exact hnotin_o h'
              refine ⟨?_, ?_, ?_, ?_, ?_⟩
              · rw [b1, List.append_assoc]
              · intro x hx
                rcases List.mem_append.mp hx with h' | h'
                · intro hv
                  exact b2 x h' (List.mem_cons_of_mem _ hv)
                · simp only [List.mem_singleton] at h'
                  exact h' ▸ hvis
              · intro x hx
                rcases List.mem_append.mp hx with h' | h'
                · exact b3 x h'
                · simp only [List.mem_singleton] at h'
                  subst h'
                  intro cfg' hlk' e he
                  rw [hlk] at hlk'
                  injection hlk' with hlk'
                  subst hlk'
                  exact b4 e he
              · intro _
                exact List.mem_append.mpr (Or.inr (List.mem_singleton.mpr rfl))
              · intro hinv
                refine resInv_append (b6 hinv) hen hnot_r ?_
                intro e hrel
                obtain ⟨-, hene, cfg₂, hlk₂, he⟩ := hrel
                rw [hlk] at hlk₂
                injection hlk₂ with hlk₂
                subst hlk₂
                exact b5 e he hene

theorem enabledLoop_success {domains : DomainMap} {fuel : Nat} :
    ∀ entries resolved order res',
      enabledLoop domains fuel entries resolved = some (Except.ok (order, res')) →
        res' = resolved ++ order ∧
        (∀ x ∈ order, DepsCheckedAt domains x) ∧
        (∀ p ∈ entries, enabledD p.2 = true → isEnabled domains p.1 = true → p.1 ∈ res') ∧
        (ResInv domains resolved → ResInv domains res') := by
  intro entries
  induction entries with
  | nil =>
    intro resolved order res' h
    simp only [enabledLoop, Option.some.injEq, Except.ok.injEq, Prod.mk.injEq] at h
    obtain ⟨h1, h2⟩ := h
    subst h1
    subst h2
    simp
  | cons p rest ih =>
    intro resolved order res' h
    obtain ⟨name, cfg⟩ := p
    simp only [enabledLoop] at h
    split at h
    · rename_i hgate
      split at h
      · simp at h
      · simp at h
      · rename_i o₁ r₁ hr
        split at h
        · simp at h
        · simp at h
        · rename_i o₂ r₂ hrest
          simp only [Option.some.injEq, Except.ok.injEq, Prod.mk.injEq] at h
          obtain ⟨h1, h2⟩ := h
          subst h1
          subst h2
          obtain ⟨a1, -, a3, a4, a5⟩ :=
            resolveDependencies_success fuel name resolved [] o₁ r₁ hr
          obtain ⟨b1, b2, b3, b4⟩ := ih r₁ o₂ r₂ hrest
          refine ⟨by rw [b1, a1, List.append_assoc], ?_, ?_, ?_⟩
          · intro x hx
            rcases List.mem_append.mp hx with h' | h'
            · exact a3 x h'
            · exact b2 x h'
          · intro q hq hqe hqen
            rcases List.mem_cons.mp hq with h' | h'
            · subst h'
              rw [b1]
              exact List.mem_append.mpr (Or.inl (a4 hqen))
            · exact b3 q h' hqe hqen
          · intro hinv
            exact b4 (a5 hinv)
    · rename_i hgate
      obtain ⟨b1, b2, b3, b4⟩ := ih resolved order res' h
      refine ⟨b1, b2, ?_, b4⟩
      intro q hq hqe hqen
      rcases List.mem_cons.mp hq with h' | h'
      · subst h'
        exact absurd hqe hgate
      · exact b3 q h' hqe hqen

theorem resInv_nil {domains : DomainMap} : ResInv domains [] :=
  ⟨List.nodup_nil, by simp, by simp⟩

theorem getEnabledDomains_ok {domains : DomainMap} {result : List String}
    (h : getEnabledDomains domains = Except.ok result) :
    ResInv domains result ∧
    (∀ x ∈ result, DepsCheckedAt domains x) ∧
    (∀ p ∈ domains, enabledD p.2 = true → isEnabled domains p.1 = true → p.1 ∈ result) := by
  unfold getEnabledDomains at h
  cases henl : enabledLoop domains (registryFuel domains) domains [] with
  | none => rw [henl] at h; cases h
  | some r =>
    rw [henl] at h
    cases r with
    | error e => cases h
    | ok p =>
      obtain ⟨order, res⟩ := p
      simp only [Except.ok.injEq] at h
      obtain ⟨a1, a2, a3, a4⟩ := enabledLoop_success domains [] order res henl
      rw [List.nil_append] at a1
      subst a1
      have hinv : ResInv domains res := a4 resInv_nil
      have hded : dedupFirst res = res := dedupFirst_eq_self hinv.nodup
      rw [hded] at h
      subst h
      exact ⟨hinv, a2, a3⟩

theorem resInv_reach {domains : DomainMap} {L : List String}
    (hL : ResInv domains L) {d e : String}
    (h : Relation.TransGen (depRel domains) d e) (hd : d ∈ L) :
    e ∈ L ∧ idxOf L e < idxOf L d := by
  induction h with
  | single h1 => exact hL.depsBefore _ _ hd h1
  | tail htg h1 ih =>
    obtain ⟨hc, hlt⟩ := ih
    obtain ⟨he, hlt'⟩ := hL.depsBefore _ _ hc h1
    exact ⟨he, lt_trans hlt' hlt⟩

theorem transGen_src_enabled {domains : DomainMap} {d e : String}
    (h : Relation.TransGen (depRel domains) d e) : isEnabled domains d = true := by
  induction h with
  | single h1 => exact h1.1
  | tail _ _ ih => exact ih

theorem mem_enabledKeys {domains : DomainMap} {name : String} {cfg : DomainConfig}
    (hlk : alookup domains name = some cfg) (hen : enabledD cfg = true) :
    name ∈ enabledKeys domains := by
  have hmem := alookup_mem hlk
  unfold enabledKeys
  exact List.mem_map.mpr ⟨(name, cfg), List.mem_filter.mpr ⟨hmem, by simpa⟩, rfl⟩

theorem filter_length_mono {p q : String → Bool} (hpq : ∀ x, p x = true → q x = true) :
    ∀ l : List String, (l.filter p).length ≤ (l.filter q).length := by
  intro l
  induction l with
  | nil => simp
  | cons x rest ih =>
    by_cases hp : p x = true
    · have hq := hpq x hp
      simp only [List.filter_cons, hp, hq, if_true, List.length_cons]
      exact Nat.succ_le_succ ih
    · simp only [List.filter_cons]
      rw [Bool.not_eq_true] at hp
      rw [hp]
      by_cases hq : q x = true
      · rw [hq]
        simp only [List.length_cons]
        exact Nat.le_succ_of_le ih
      · rw [Bool.not_eq_true] at hq
        rw [hq]
        exact ih

theorem filter_push_lt {visiting : List String} {name : String} (hnv : name ∉ visiting) :
    ∀ l : List String, name ∈ l →
      (l.filter (fun x => decide (x ∉ name :: visiting))).length <
        (l.filter (fun x => decide (x ∉ visiting))).length := by
  have hmono : ∀ x : String,
      (fun x => decide (x ∉ name :: visiting)) x = true →
        (fun x => decide (x ∉ visiting)) x = true := by
    intro x hx
    simp only [decide_eq_true_eq, List.mem_cons, not_or] at hx ⊢
    exact hx.2
  intro l
  induction l with
  | nil => simp
  | cons x rest ih =>
    intro hmem
    by_cases hx : x = name
    · subst hx
      have h1 : (fun y => decide (y ∉ x :: visiting)) x = false := by simp
      have h2 : (fun y => decide (y ∉ visiting)) x = true := by simpa using hnv
      simp only [List.filter_cons, h1, h2, if_true, if_false, List.length_cons]
      exact Nat.lt_succ_of_le (filter_length_mono hmono rest)
    · have hmem' : name ∈ rest := by
        rcases List.mem_cons.mp hmem with h' | h'
        · exact absurd h'.symm hx
        · exact h'
      have heqp : (decide (x ∉ name :: visiting)) = (decide (x ∉ visiting)) := by
        simp only [decide_eq_decide, List.mem_cons, not_or]
        constructor
        · intro h'
          exact h'.2
        · intro h'
          exact ⟨hx, h'⟩
      by_cases hq : x ∉ visiting
      · have e1 : (x :: rest).filter (fun y => decide (y ∉ name :: visiting))
            = x :: rest.filter (fun y => decide (y ∉ name :: visiting)) := by
          simp [List.filter_cons]
          exact ⟨hx, hq⟩
        have e2 : (x :: rest).filter (fun y => decide (y ∉ visiting))
            = x :: rest.filter (fun y => decide (y ∉ visiting)) := by
          simp [List.filter_cons]
          exact hq
        rw [e1, e2, List.length_cons, List.length_cons]
        exact Nat.succ_lt_succ (ih hmem')
      · have e1 : (x :: rest).filter (fun y => decide (y ∉ name :: visiting))
            = rest.filter (fun y => decide (y ∉ name :: visiting)) := by
          simp [List.filter_cons]
          exact fun _ => not_not.mp hq
        have e2 : (x :: rest).filter (fun y => decide (y ∉ visiting))
            = rest.filter (fun y => decide (y ∉ visiting)) := by
          simp [List.filter_cons]
          exact not_not.mp hq
        rw [e1, e2]
        exact ih hmem'

theorem countFree_push {domains : DomainMap} {visiting : List String} {name : String}
    (hmem : name ∈ enabledKeys domains) (hnv : name ∉ visiting) :
    countFree domains (name :: visiting) < countFree domains visiting :=
  filter_push_lt hnv (enabledKeys domains) hmem

theorem countFree_le (domains : DomainMap) (visiting : List String) :
    countFree domains visiting ≤ domains.length := by
  unfold countFree
  calc ((enabledKeys domains).filter _).length
      ≤ (enabledKeys domains).length := List.length_filter_le _ _
    _ = (domains.filter (fun p => enabledD p.2)).length := by
        unfold enabledKeys
        exact List.length_map _ _
    _ ≤ domains.length := List.length_filter_le _ _

theorem resolveDepList_isSome {domains : DomainMap}
    {recur : String → List String → List String →
      Option (Except RegError (List String × List String))}
    {visiting : List String}
    (hrec : ∀ dep resolved, (recur dep resolved visiting).isSome = true) :
    ∀ deps parent resolved,
      (resolveDepList domains recur parent deps resolved visiting).isSome = true := by
  intro deps
  induction deps with
  | nil =>
    intro parent resolved
    simp [resolveDepList]
  | cons dep rest ih =>
    intro parent resolved
    simp only [resolveDepList]
    split
    · simp
    · split
      · rename_i heq
        have hs := hrec dep resolved
        rw [heq] at hs
        cases hs
      · simp
      · rename_i o₁ r₁ heq
        split
        · rename_i heq'
          have hs := ih parent r₁
          rw [heq'] at hs
          cases hs
        · simp
        · simp

theorem resolveDependencies_isSome {domains : DomainMap} :
    ∀ fuel name resolved visiting, countFree domains visiting < fuel →
      (resolveDependencies domains fuel name resolved visiting).isSome = true := by
  intro fuel
  induction fuel with
  | zero =>
    intro name resolved visiting h
    exact absurd h (Nat.not_lt_zero _)
  | succ fuel ih =>
    intro name resolved visiting hfuel
    simp only [resolveDependencies]
    split
    · simp
    · rename_i hres
      split
      · simp
      · rename_i hvis
        split
        · simp
        · rename_i cfg hlk
          split
          · simp
          · rename_i hdis
            have hen : enabledD cfg = true := Bool.not_eq_false _ |>.mp hdis
            have hpush : countFree domains (name :: visiting) < fuel := by
              have h1 := countFree_push (mem_enabledKeys hlk hen) hvis
              omega
            have hlist := @resolveDepList_isSome domains
              (resolveDependencies domains fuel) (name :: visiting)
              (fun dep resolved' => ih dep resolved' (name :: visiting) hpush)
              cfg.depends_on name resolved
            split
            · rename_i heq
              rw [heq] at hlist
              cases hlist
            · simp
            · simp

theorem enabledLoop_isSome (domains : DomainMap) :
    ∀ entries resolved,
      (enabledLoop domains (registryFuel domains) entries resolved).isSome = true := by
  intro entries
  induction entries with
  | nil =>
    intro resolved
    simp [enabledLoop]
  | cons p rest ih =>
    intro resolved
    obtain ⟨name, cfg⟩ := p
    simp only [enabledLoop]
    split
    · have hr := @resolveDependencies_isSome domains (registryFuel domains) name resolved []
        (by have := countFree_le domains []; unfold registryFuel; omega)
      split
      · rename_i heq
        rw [heq] at hr
        cases hr
      · simp
      · rename_i o₁ r₁ heq
        have hrest := ih r₁
        split
        · rename_i heq'
          rw [heq'] at hrest
          cases hrest
        · simp
        · simp
    · exact ih resolved

theorem resolveDepList_error_shape {domains : DomainMap}
    {recur : String → List String → List String →
      Option (Except RegError (List String × List String))}
    {visiting : List String}
    (hrec : ∀ dep resolved e, dep ∈ keys domains →
      recur dep resolved visiting = some (Except.error e) →
        ∃ msg, e = RegError.dependencyError msg) :
    ∀ deps parent resolved e,
      resolveDepList domains recur parent deps resolved visiting
          = some (Except.error e) →
        ∃ msg, e = RegError.dependencyError msg := by
  intro deps
  induction deps with
  | nil =>
    intro parent resolved e h
    simp [resolveDepList] at h
  | cons dep rest ih =>
    intro parent resolved e h
    simp only [resolveDepList] at h
    split at h
    · simp only [Option.some.injEq, Except.error.injEq] at h
      exact ⟨_, h.symm⟩
    · rename_i hnone
      split at h
      · cases h
      · rename_i e' hr
        simp only [Option.some.injEq, Except.error.injEq] at h
        subst h
        have hne : ¬ alookup domains dep = none := by
          simpa [Option.isNone_iff_eq_none] using hnone
        have hkey : dep ∈ keys domains :=
          mem_keys_iff.mpr (Option.ne_none_iff_isSome.mp hne)
        exact hrec dep resolved e' hkey hr
      · rename_i o₁ r₁ hr
        split at h
        · cases h
        · rename_i e' hrest
          simp only [Option.some.injEq, Except.error.injEq] at h
          subst h
          exact ih parent r₁ e' hrest
        · simp at h

theorem resolveDependencies_error_shape {domains : DomainMap} :
    ∀ fuel name resolved visiting e, name ∈ keys domains →
      resolveDependencies domains fuel name resolved visiting
          = some (Except.error e) →
        ∃ msg, e = RegError.dependencyError msg := by
  intro fuel
  induction fuel with
  | zero =>
    intro name resolved visiting e _ h
    simp [resolveDependencies] at h
  | succ fuel ih =>
    intro name resolved visiting e hkey h
    simp only [resolveDependencies] at h
    split at h
    · simp at h
    · split at h
      · simp only [Option.some.injEq, Except.error.injEq] at h
        exact ⟨_, h.symm⟩
      · split at h
        · rename_i hlk
          have hs := mem_keys_iff.mp hkey
          rw [hlk] at hs
          cases hs
        · rename_i cfg hlk
          split at h
          · simp at h
          · split at h
            · cases h
            · rename_i e' hdl
              simp only [Option.some.injEq, Except.error.injEq] at h
              subst h
              exact resolveDepList_error_shape
                (fun dep r' e'' hk hr => ih dep r' (name :: visiting) e'' hk hr)
                cfg.depends_on name resolved e' hdl
            · simp at h

theorem enabledLoop_error_shape {domains : DomainMap} {fuel : Nat} :
    ∀ entries resolved e, (∀ p ∈ entries, p.1 ∈ keys domains) →
      enabledLoop domains fuel entries resolved = some (Except.error e) →
        ∃ msg, e = RegError.dependencyError msg := by
  intro entries
  induction entries with
  | nil =>
    intro resolved e _ h
    simp [enabledLoop] at h
  | cons p rest ih =>
    intro resolved e hkeys h
    obtain ⟨name, cfg⟩ := p
    simp only [enabledLoop] at h
    split at h
    · split at h
      · cases h
      · rename_i e' hr
        simp only [Option.some.injEq, Except.error.injEq] at h
        subst h
        exact resolveDependencies_error_shape fuel name resolved [] e'
          (hkeys (name, cfg) (List.mem_cons_self _ _)) hr
      · rename_i o₁ r₁ hr
        split at h
        · cases h
        · rename_i e' hrest
          simp only [Option.some.injEq, Except.error.injEq] at h
          subst h
          exact ih r₁ e' (fun q hq => hkeys q (List.mem_cons_of_mem _ hq)) hrest
        · simp at h
    · exact ih resolved e (fun q hq => hkeys q (List.mem_cons_of_mem _ hq)) h

theorem getEnabledDomains_error_shape {domains : DomainMap} {e : RegError}
    (h : getEnabledDomains domains = Except.error e) :
    ∃ msg, e = RegError.dependencyError msg := by
  unfold getEnabledDomains at h
  cases henl : enabledLoop domains (registryFuel domains) domains [] with
  | none =>
    have hs := enabledLoop_isSome domains domains []
    rw [henl] at hs
    cases hs
  | some r =>
    rw [henl] at h
    cases r with
    | error e' =>
      simp only [Except.error.injEq] at h
      subst h
      exact enabledLoop_error_shape domains [] e'
        (fun p hp => List.mem_map.mpr ⟨p, hp, rfl⟩) henl
    | ok p => cases h

theorem vchain_no_self {domains : DomainMap} {name : String} {visiting : List String}
    (hA : Acyclic domains) (hchain : VChain domains (name :: visiting)) :
    name ∉ visiting := by
  intro hmem
  exact hA name (vchain_reach hchain name hmem)

theorem resolveDepList_ok {domains : DomainMap}
    {recur : String → List String → List String →
      Option (Except RegError (List String × List String))}
    {name : String} {visiting : List String} {cfg : DomainConfig}
    (hD : DepsExist domains)
    (hlk : alookup domains name = some cfg)
    (hname_en : isEnabled domains name = true)
    (hchain : VChain domains (name :: visiting))
    (hrec : ∀ dep resolved, dep ∈ keys domains →
      (isEnabled domains dep = true → VChain domains (dep :: name :: visiting)) →
      ∃ o r, recur dep resolved (name :: visiting) = some (Except.ok (o, r))) :
    ∀ deps, (∀ dep ∈ deps, dep ∈ cfg.depends_on) →
      ∀ resolved, ∃ o r,
        resolveDepList domains recur name deps resolved (name :: visiting)
          = some (Except.ok (o, r)) := by
  intro deps
  induction deps with
  | nil =>
    intro _ resolved
    exact ⟨[], resolved, rfl⟩
  | cons dep rest ihd =>
    intro hsub resolved
    have hdep_mem : dep ∈ cfg.depends_on := hsub dep (List.mem_cons_self _ _)
    have hdep_key : dep ∈ keys domains :=
      hD (name, cfg) (alookup_mem hlk) dep hdep_mem
    have hext : isEnabled domains dep = true → VChain domains (dep :: name :: visiting) := by
      intro hde
      exact VChain.cons dep name visiting ⟨hname_en, hde, cfg, hlk, hdep_mem⟩ hchain
    obtain ⟨o₁, r₁, hr⟩ := hrec dep resolved hdep_key hext
    obtain ⟨o₂, r₂, hrest⟩ := ihd (fun d hd => hsub d (List.mem_cons_of_mem _ hd)) r₁
    refine ⟨o₁ ++ o₂, r₂, ?_⟩
    have hsome : ¬ (alookup domains dep).isNone = true := by
      simp only [Option.isNone_iff_eq_none]
      exact Option.ne_none_iff_isSome.mpr (mem_keys_iff.mp hdep_key)
    simp only [resolveDepList]
    rw [if_neg hsome]
    simp only [hr, hrest]

theorem resolveDependencies_ok {domains : DomainMap}
    (hA : Acyclic domains) (hD : DepsExist domains) :
    ∀ fuel name resolved visiting,
      countFree domains visiting < fuel →
      name ∈ keys domains →
      VChain domains visiting →
      (isEnabled domains name = true → VChain domains (name :: visiting)) →
      ∃ o r, resolveDependencies domains fuel name resolved visiting
        = some (Except.ok (o, r)) := by
  intro fuel
  induction fuel with
  | zero =>
    intro name resolved visiting hf _ _ _
    exact absurd hf (Nat.not_lt_zero _)
  | succ fuel ih =>
    intro name resolved visiting hfuel hkey hv hext
    simp only [resolveDependencies]
    by_cases hres : name ∈ resolved
    · refine ⟨[], resolved, ?_⟩
      rw [if_pos hres]
    · rw [if_neg hres]
      by_cases hen : isEnabled domains name = true
      · have hchain := hext hen
        have hvis : name ∉ visiting := vchain_no_self hA hchain
        rw [if_neg hvis]
        obtain ⟨cfg, hlk, hcen⟩ := isEnabled_iff.mp hen
        simp only [hlk]
        rw [if_neg (by simp [hcen])]
        have hpush : countFree domains (name :: visiting) < fuel := by
          have h1 := countFree_push (mem_enabledKeys hlk hcen) hvis
          omega
        obtain ⟨o, r, hdl⟩ := resolveDepList_ok hD hlk hen hchain
          (fun dep resolved' hk hx => ih dep resolved' (name :: visiting) hpush hk hchain hx)
          cfg.depends_on (fun d hd => hd) resolved
        simp only [hdl]
        exact ⟨o ++ [name], r ++ [name], rfl⟩
      · have hvis : name ∉ visiting := fun hmem => hen (vchain_enabled hv name hmem)
        rw [if_neg hvis]
        obtain ⟨cfg, hlk⟩ := Option.isSome_iff_exists.mp (mem_keys_iff.mp hkey)
        simp only [hlk]
        have hcen : enabledD cfg = false := by
          cases hb : enabledD cfg
          · rfl
          · exact absurd (by simp [isEnabled, hlk, hb]) hen
        rw [if_pos hcen]
        exact ⟨[], resolved, rfl⟩

theorem enabledLoop_ok {domains : DomainMap}
    (hA : Acyclic domains) (hD : DepsExist domains) :
    ∀ entries, (∀ p ∈ entries, p ∈ domains) →
      ∀ resolved, ∃ o r,
        enabledLoop domains (registryFuel domains) entries resolved
          = some (Except.ok (o, r)) := by
  intro entries
  induction entries with
  | nil =>
    intro _ resolved
    exact ⟨[], resolved, rfl⟩
  | cons p rest ihe =>
    intro hsub resolved
    obtain ⟨name, cfg⟩ := p
    by_cases hgate : enabledD cfg = true
    · have hkey : name ∈ keys domains :=
        List.mem_map.mpr ⟨(name, cfg), hsub _ (List.mem_cons_self _ _), rfl⟩
      obtain ⟨o₁, r₁, hr⟩ := resolveDependencies_ok hA hD (registryFuel domains)
        name resolved []
        (by have := countFree_le domains []; unfold registryFuel; omega)
        hkey VChain.nil (fun hen => VChain.single name hen)
      obtain ⟨o₂, r₂, hrest⟩ := ihe (fun q hq => hsub q (List.mem_cons_of_mem _ hq)) r₁
      refine ⟨o₁ ++ o₂, r₂, ?_⟩
      simp only [enabledLoop]
      rw [if_pos hgate]
      simp only [hr, hrest]
    · obtain ⟨o, r, hrest⟩ := ihe (fun q hq => hsub q (List.mem_cons_of_mem _ hq)) resolved
      refine ⟨o, r, ?_⟩
      simp only [enabledLoop]
      rw [if_neg hgate]
      exact hrest

theorem getEnabledDomains_isOk {domains : DomainMap}
    (hA : Acyclic domains) (hD : DepsExist domains) :
    ∃ result, getEnabledDomains domains = Except.ok result := by
  obtain ⟨o, r, h⟩ := enabledLoop_ok hA hD domains (fun p hp => hp) []
  unfold getEnabledDomains
  simp only [h]
  exact ⟨dedupFirst o, rfl⟩

theorem equiv_alookup {d₁ d₂ : DomainMap} (h : List.Forall₂ cfgEquiv d₁ d₂) (k : String) :
    (alookup d₁ k = none ∧ alookup d₂ k = none) ∨
      ∃ c c', alookup d₁ k = some c ∧ alookup d₂ k = some c' ∧
        enabledD c = enabledD c' ∧ c.depends_on = c'.depends_on := by
  induction h with
  | nil => exact Or.inl ⟨rfl, rfl⟩
  | cons h1 h2 ih =>
    rename_i p q l₁ l₂
    obtain ⟨k₁, c₁⟩ := p
    obtain ⟨k₂, c₂⟩ := q
    obtain ⟨hk, he, hd⟩ := h1
    simp only at hk he hd
    subst hk
    by_cases hkey : k₁ = k
    · right
      exact ⟨c₁, c₂, by simp [alookup, hkey], by simp [alookup, hkey], he, hd⟩
    · simpa [alookup, hkey] using ih

theorem equiv_keys {d₁ d₂ : DomainMap} (h : List.Forall₂ cfgEquiv d₁ d₂) :
    keys d₁ = keys d₂ := by
  induction h with
  | nil => rfl
  | cons h1 h2 ih =>
    rename_i p q l₁ l₂
    simp only [keys, List.map_cons] at ih ⊢
    rw [h1.1, ih]

theorem equiv_resolveDepList {d₁ d₂ : DomainMap} (h : List.Forall₂ cfgEquiv d₁ d₂)
    {recur₁ recur₂ : String → List String → List String →
      Option (Except RegError (List String × List String))}
    (hrec : ∀ dep resolved visiting,
      recur₁ dep resolved visiting = recur₂ dep resolved visiting) :
    ∀ deps parent resolved visiting,
      resolveDepList d₁ recur₁ parent deps resolved visiting
        = resolveDepList d₂ recur₂ parent deps resolved visiting := by
  intro deps
  induction deps with
  | nil => intro parent resolved visiting; rfl
  | cons dep rest ih =>
    intro parent resolved visiting
    rcases equiv_alookup h dep with ⟨h1, h2⟩ | ⟨c, c', h1, h2, -, -⟩
    · simp [resolveDepList, h1, h2]
    · simp only [resolveDepList, h1, h2, Option.isNone_some]
      rw [hrec dep resolved visiting]
      cases recur₂ dep resolved visiting with
      | none => rfl
      | some r1 =>
        cases r1 with
        | error e => rfl
        | ok p1 =>
          obtain ⟨o₁, r₁⟩ := p1
          simp only []
          rw [ih parent r₁ visiting]

theorem equiv_resolveDependencies {d₁ d₂ : DomainMap}
    (h : List.Forall₂ cfgEquiv d₁ d₂) :
    ∀ fuel name resolved visiting,
      resolveDependencies d₁ fuel name resolved visiting
        = resolveDependencies d₂ fuel name resolved visiting := by
  intro fuel
  induction fuel with
  | zero => intro name resolved visiting; rfl
  | succ fuel ih =>
    intro name resolved visiting
    simp only [resolveDependencies]
    by_cases hres : name ∈ resolved
    · rw [if_pos hres, if_pos hres]
    · rw [if_neg hres, if_neg hres]
      by_cases hvis : name ∈ visiting
      · rw [if_pos hvis, if_pos hvis]
      · rw [if_neg hvis, if_neg hvis]
        rcases equiv_alookup h name with ⟨h1, h2⟩ | ⟨c, c', h1, h2, he, hd⟩
        · rw [h1, h2]
        · simp only [h1, h2]
          rw [he, hd]
          by_cases hdis : enabledD c' = false
          · rw [if_pos hdis, if_pos hdis]
          · rw [if_neg hdis, if_neg hdis]
            rw [equiv_resolveDepList h (fun dep resolved' visiting' =>
              ih dep resolved' visiting') c'.depends_on name resolved (name :: visiting)]

theorem equiv_enabledLoop {d₁ d₂ : DomainMap} (h : List.Forall₂ cfgEquiv d₁ d₂)
    {fuel : Nat} :
    ∀ {entries₁ entries₂ : List (String × DomainConfig)},
      List.Forall₂ cfgEquiv entries₁ entries₂ →
      ∀ resolved, enabledLoop d₁ fuel entries₁ resolved
        = enabledLoop d₂ fuel entries₂ resolved := by
  intro entries₁ entries₂ hent
  induction hent with
  | nil => intro resolved; rfl
  | cons h1 h2 ih =>
    rename_i p q l₁ l₂
    intro resolved
    obtain ⟨k₁, c₁⟩ := p
    obtain ⟨k₂, c₂⟩ := q
    obtain ⟨hk, he, -⟩ := h1
    simp only at hk he
    subst hk
    simp only [enabledLoop]
    rw [he]
    by_cases hgate : enabledD c₂ = true
    · rw [if_pos hgate, if_pos hgate]
      rw [equiv_resolveDependencies h fuel k₁ resolved []]
      cases resolveDependencies d₂ fuel k₁ resolved [] with
      | none => rfl
      | some r1 =>
        cases r1 with
        | error e => rfl
        | ok p1 =>
          obtain ⟨o₁, r₁⟩ := p1
          simp only []
          rw [ih r₁]
    · rw [if_neg hgate, if_neg hgate]
      exact ih resolved

theorem equiv_getEnabledDomains {d₁ d₂ : DomainMap}
    (h : List.Forall₂ cfgEquiv d₁ d₂) :
    getEnabledDomains d₁ = getEnabledDomains d₂ := by
  unfold getEnabledDomains registryFuel
  rw [h.length_eq]
  rw [equiv_enabledLoop h h []]

theorem setEnabledFalse_equiv {domains : DomainMap} {name : String}
    (hnone : ∀ p ∈ domains, p.1 = name → p.2.enabled = none) :
    List.Forall₂ cfgEquiv domains (setEnabledFalse domains name) := by
  induction domains with
  | nil => exact List.Forall₂.nil
  | cons p rest ih =>
    simp only [setEnabledFalse, List.map_cons]
    refine List.Forall₂.cons ?_ ?_
    · by_cases hk : p.1 = name
      · have hen := hnone p (List.mem_cons_self _ _) hk
        rw [if_pos hk]
        exact ⟨rfl, by simp [enabledD, hen], rfl⟩
      · rw [if_neg hk]
        exact ⟨rfl, rfl, rfl⟩
    · exact ih (fun q hq hqk => hnone q (List.mem_cons_of_mem _ hq) hqk)

theorem loadDomainsLoop_preserves {F : Type} (imports : Imports F) (domains : DomainMap) :
    ∀ names (reg : Registry F),
      (loadDomainsLoop imports domains names reg).1.domains = reg.domains ∧
      (loadDomainsLoop imports domains names reg).1.loaded = reg.loaded := by
  intro names
  induction names with
  | nil => intro reg; exact ⟨rfl, rfl⟩
  | cons name rest ih =>
    intro reg
    simp only [loadDomainsLoop]
    cases alookup domains name with
    | none => exact ⟨rfl, rfl⟩
    | some cfg =>
      dsimp only
      cases imports (modulePath name cfg) with
      | error cause => exact ⟨rfl, rfl⟩
      | ok m =>
        dsimp only
        exact ih _

theorem loadDomainsLoop_error_stable {F : Type} (imports : Imports F) (domains : DomainMap) :
    ∀ names (reg reg' : Registry F),
      reg'.domains = reg.domains →
      (loadDomainsLoop imports domains names reg).2
        = (loadDomainsLoop imports domains names reg').2 := by
  intro names
  induction names with
  | nil => intro reg reg' _; rfl
  | cons name rest ih =>
    intro reg reg' hdom
    simp only [loadDomainsLoop]
    cases alookup domains name with
    | none => rfl
    | some cfg =>
      dsimp only
      cases imports (modulePath name cfg) with
      | error cause => rfl
      | ok m =>
        dsimp only
        exact ih _ _ (by simp [hdom])

theorem loadDomainsLoop_error {F : Type} (imports : Imports F) (domains : DomainMap) :
    ∀ names (reg : Registry F) e,
      (∀ n ∈ names, n ∈ keys domains) →
      (loadDomainsLoop imports domains names reg).2 = some e →
      ∃ name cfg cause, name ∈ names ∧ alookup domains name = some cfg ∧
        imports (modulePath name cfg) = Except.error cause ∧
        e = RegError.configurationError
          ("Failed to import domain '" ++ name ++ "' from "
            ++ moduleBase name cfg ++ ": " ++ cause) := by
  intro names
  induction names with
  | nil =>
    intro reg e _ h
    simp [loadDomainsLoop] at h
  | cons name rest ih =>
    intro reg e hk h
    simp only [loadDomainsLoop] at h
    cases hlk : alookup domains name with
    | none =>
      have hs := mem_keys_iff.mp (hk name (List.mem_cons_self _ _))
      rw [hlk] at hs
      cases hs
    | some cfg =>
      rw [hlk] at h
      dsimp only at h
      cases him : imports (modulePath name cfg) with
      | error cause =>
        rw [him] at h
        dsimp only at h
        simp only [Option.some.injEq] at h
        exact ⟨name, cfg, cause, List.mem_cons_self _ _, hlk, him, h.symm⟩
      | ok m =>
        rw [him] at h
        dsimp only at h
        obtain ⟨name', cfg', cause', hmem', hlk', him', he'⟩ :=
          ih _ e (fun n hn => hk n (List.mem_cons_of_mem _ hn)) h
        exact ⟨name', cfg', cause', List.mem_cons_of_mem _ hmem', hlk', him', he'⟩

theorem insertTool_keys {F : Type} {k X : String} (hne : k ≠ X) (v : F) :
    ∀ tbl : List (String × F),
      X ∉ tbl.map Prod.fst → X ∉ (insertTool tbl k v).map Prod.fst := by
  intro tbl
  induction tbl with
  | nil =>
    intro _
    simp only [insertTool, List.map_cons, List.map_nil, List.mem_singleton]
    exact fun h => hne h.symm
  | cons p rest ih =>
    intro hX
    obtain ⟨k', v'⟩ := p
    simp only [List.map_cons, List.mem_cons, not_or] at hX
    obtain ⟨hx1, hx2⟩ := hX
    simp only [insertTool]
    by_cases hk : k' = k
    · rw [if_pos hk]
      simp only [List.map_cons, List.mem_cons, not_or]
      exact ⟨fun h => hne h.symm, hx2⟩
    · rw [if_neg hk]
      simp only [List.map_cons, List.mem_cons, not_or]
      exact ⟨hx1, ih hx2⟩

theorem addTools_keys {F : Type} {configured : List String} {X : String} :
    ∀ (exports : List (String × F)) (tbl : List (String × F)),
      X ∉ tbl.map Prod.fst →
      (X ∈ configured → X ∉ exports.map Prod.fst) →
      X ∉ (addTools configured exports tbl).map Prod.fst := by
  intro exports
  induction exports with
  | nil =>
    intro tbl hX _
    exact hX
  | cons p rest ih =>
    intro tbl hX hconf
    obtain ⟨n, f⟩ := p
    simp only [addTools]
    have hconf' : X ∈ configured → X ∉ rest.map Prod.fst := by
      intro hc
      have := hconf hc
      simp only [List.map_cons, List.mem_cons, not_or] at this
      exact this.2
    by_cases hn : n ∈ configured
    · rw [if_pos hn]
      have hne : n ≠ X := by
        intro hnx
        subst hnx
        have := hconf hn
        simp at this
      exact ih (insertTool tbl n f) (insertTool_keys hne f tbl hX) hconf'
    · rw [if_neg hn]
      exact ih tbl hX hconf'

theorem loadDomainsLoop_allowlist {F : Type} (imports : Imports F) (domains : DomainMap)
    (X : String)
    (hX : ∀ p ∈ domains, X ∈ p.2.tools → moduleLacks imports p.1 p.2 X = true) :
    ∀ names (reg : Registry F),
      X ∉ reg.tools.map Prod.fst →
      (∀ d ∈ reg.tool_definitions, d.name ≠ X) →
      X ∉ (loadDomainsLoop imports domains names reg).1.tools.map Prod.fst ∧
        (∀ d ∈ (loadDomainsLoop imports domains names reg).1.tool_definitions,
          d.name ≠ X) := by
  intro names
  induction names with
  | nil =>
    intro reg h1 h2
    exact ⟨h1, h2⟩
  | cons name rest ih =>
    intro reg h1 h2
    simp only [loadDomainsLoop]
    cases hlk : alookup domains name with
    | none => exact ⟨h1, h2⟩
    | some cfg =>
      dsimp only
      cases him : imports (modulePath name cfg) with
      | error cause => exact ⟨h1, h2⟩
      | ok m =>
        dsimp only
        have hlacks : X ∈ cfg.tools → moduleLacks imports name cfg X = true :=
          hX (name, cfg) (alookup_mem hlk)
        refine ih _ ?_ ?_
        · cases hts : m.TOOLS with
          | none => exact h1
          | some ts =>
            refine addTools_keys ts reg.tools h1 ?_
            intro hc
            have hl := hlacks hc
            unfold moduleLacks at hl
            rw [him] at hl
            dsimp only at hl
            rw [hts] at hl
            simp only [Bool.and_eq_true, decide_eq_true_eq] at hl
            exact hl.1
        · cases hds : m.TOOL_DEFINITIONS with
          | none => exact h2
          | some ds =>
            intro d hd
            rcases List.mem_append.mp hd with h' | h'
            · exact h2 d h'
            · have hdm := List.mem_filter.mp h'
              have hc : d.name ∈ cfg.tools := by simpa using hdm.2
              intro hdx
              have hl := hlacks (hdx ▸ hc)
              unfold moduleLacks at hl
              rw [him] at hl
              dsimp only at hl
              rw [hds] at hl
              simp only [Bool.and_eq_true, decide_eq_true_eq] at hl
              exact hl.2 d hdm.1 hdx

theorem loadDomains_loaded {F : Type} (imports : Imports F) {reg : Registry F}
    (h : reg.loaded = true) : loadDomains imports reg = (reg, none) := by
  unfold loadDomains
  rw [if_pos h]

theorem loadDomains_success_loaded {F : Type} {imports : Imports F}
    {reg reg₁ : Registry F}
    (h : loadDomains imports reg = (reg₁, none)) : reg₁.loaded = true := by
  unfold loadDomains at h
  split at h
  · rename_i hl
    have hr : reg₁ = reg := by
      have := congrArg Prod.fst h
      simpa using this.symm
    rw [hr]
    exact hl
  · split at h
    · simp at h
    · split at h
      · simp at h
      · rename_i reg' hloop
        have hr : reg₁ = { reg' with loaded := true } := by
          have := congrArg Prod.fst h
          simpa using this.symm
        rw [hr]

theorem loadDomains_failure_state {F : Type} {imports : Imports F}
    {reg reg₁ : Registry F} {e : RegError}
    (hun : reg.loaded = false)
    (h : loadDomains imports reg = (reg₁, some e)) :
    reg₁.domains = reg.domains ∧ reg₁.loaded = false := by
  unfold loadDomains at h
  rw [hun] at h
  simp only [Bool.false_eq_true, if_false] at h
  split at h
  · have hr : reg₁ = reg := by
      have := congrArg Prod.fst h
      simpa using this.symm
    rw [hr]
    exact ⟨rfl, hun⟩
  · rename_i enabled hen
    split at h
    · rename_i reg' e' hloop
      have hr : reg₁ = reg' := by
        have := congrArg Prod.fst h
        simpa using this.symm
      obtain ⟨hd, hl⟩ := loadDomainsLoop_preserves imports reg.domains enabled reg
      rw [hloop] at hd hl
      simp only at hd hl
      rw [hr]
      exact ⟨hd, by rw [hl]; exact hun⟩
    · simp at h

theorem getAllTools_loaded {F : Type} (imports : Imports F) {reg : Registry F}
    (h : reg.loaded = true) : getAllTools imports reg = (reg, Except.ok reg.tools) := by
  unfold getAllTools
  rw [h]
  simp

theorem getToolDefinitions_loaded {F : Type} (imports : Imports F) {reg : Registry F}
    (h : reg.loaded = true) :
    getToolDefinitions imports reg = (reg, Except.ok reg.tool_definitions) := by
  unfold getToolDefinitions
  rw [h]
  simp

theorem listTools_loaded {F : Type} (imports : Imports F) {reg : Registry F}
    (h : reg.loaded = true) :
    listTools imports reg = (reg, Except.ok (reg.tools.map Prod.fst)) := by
  unfold listTools
  rw [h]
  simp

theorem exampleChain_step {x y : String} (h : depRel exampleChain x y) :
    x = "dependent" ∧ y = "base" := by
  obtain ⟨-, -, cfg, hlk, hdep⟩ := h
  simp only [exampleChain, alookup] at hlk
  split at hlk
  · rename_i h1
    injection hlk with hlk
    subst hlk
    simp at hdep
  · split at hlk
    · rename_i h2
      injection hlk with hlk
      subst hlk
      simp only [List.mem_singleton] at hdep
      exact ⟨h2.symm, hdep⟩
    · cases hlk

theorem exampleChain_acyclic : Acyclic exampleChain := by
  intro d htg
  obtain ⟨c, hdc, hcd⟩ := Relation.TransGen.head'_iff.mp htg
  obtain ⟨hd, hc⟩ := exampleChain_step hdc
  subst hd
  subst hc
  rcases Relation.ReflTransGen.cases_head hcd with h' | ⟨c', hbc, -⟩
  · exact absurd h' (by decide)
  · obtain ⟨hb, -⟩ := exampleChain_step hbc
    exact absurd hb (by decide)

/-- C1: for every domain map whose `depends_on` graph restricted to enabled
domains is acyclic and whose dependency names all exist in the map,
`get_enabled_domains()` returns a list containing every enabled domain
exactly once and no disabled domain, in which each enabled domain appears
strictly after every enabled domain reachable from it through enabled
`depends_on` chains. -/
theorem C1_enabled_domains_topological_order (domains : DomainMap)
    (hA : Acyclic domains) (hD : DepsExist domains) :
    ∃ result, getEnabledDomains domains = Except.ok result ∧
      (∀ d, d ∈ result ↔ isEnabled domains d = true) ∧
      result.Nodup ∧
      (∀ d e, Relation.TransGen (depRel domains) d e →
        idxOf result e < idxOf result d) := by
  obtain ⟨result, hok⟩ := getEnabledDomains_isOk hA hD
  obtain ⟨hinv, hchk, hcomp⟩ := getEnabledDomains_ok hok
  refine ⟨result, hok, ?_, hinv.nodup, ?_⟩
  · intro d
    constructor
    · intro hd
      exact hinv.mem_enabled d hd
    · intro hen
      obtain ⟨cfg, hlk, hcen⟩ := isEnabled_iff.mp hen
      exact hcomp (d, cfg) (alookup_mem hlk) hcen hen
  · intro d e htg
    have hden : isEnabled domains d = true := transGen_src_enabled htg
    obtain ⟨cfg, hlk, hcen⟩ := isEnabled_iff.mp hden
    have hd : d ∈ result := hcomp (d, cfg) (alookup_mem hlk) hcen hden
    exact (resInv_reach hinv htg hd).2

/-- Witness for C1 at the spec's base/dependent example map. -/
theorem C1_witness :
    Acyclic exampleChain ∧ DepsExist exampleChain ∧
      (∃ result, getEnabledDomains exampleChain = Except.ok result ∧
        (∀ d, d ∈ result ↔ isEnabled exampleChain d = true) ∧
        result.Nodup ∧
        (∀ d e, Relation.TransGen (depRel exampleChain) d e →
          idxOf result e < idxOf result d)) :=
  ⟨exampleChain_acyclic, by unfold DepsExist; decide,
    C1_enabled_domains_topological_order exampleChain exampleChain_acyclic
      (by unfold DepsExist; decide)⟩

/-- C3: for every domain map containing a dependency cycle among enabled
domains, `get_enabled_domains()` raises a `DependencyError` (no partial
ordering is produced), and `load_domains()` on a not-yet-loaded registry
over that map aborts with the same error, leaving the registry — in
particular its tool and definition tables — unchanged. -/
theorem C3_cycle_raises_dependencyError (domains : DomainMap) (d : String)
    (hcyc : Relation.TransGen (depRel domains) d d) :
    (∃ msg, getEnabledDomains domains
      = Except.error (RegError.dependencyError msg)) ∧
    (∀ (F : Type) (imports : Imports F) (reg : Registry F),
      reg.domains = domains → reg.loaded = false →
      ∃ msg, loadDomains imports reg
        = (reg, some (RegError.dependencyError msg))) := by
  have hnotok : ∀ result, getEnabledDomains domains ≠ Except.ok result := by
    intro result hok
    obtain ⟨hinv, -, hcomp⟩ := getEnabledDomains_ok hok
    have hden : isEnabled domains d = true := transGen_src_enabled hcyc
    obtain ⟨cfg, hlk, hcen⟩ := isEnabled_iff.mp hden
    have hd : d ∈ result := hcomp (d, cfg) (alookup_mem hlk) hcen hden
    have := (resInv_reach hinv hcyc hd).2
    omega
  have herr : ∃ msg, getEnabledDomains domains
      = Except.error (RegError.dependencyError msg) := by
    cases hge : getEnabledDomains domains with
    | ok r => exact absurd hge (hnotok r)
    | error e =>
      obtain ⟨msg, hmsg⟩ := getEnabledDomains_error_shape hge
      exact ⟨msg, by rw [hmsg]⟩
  obtain ⟨msg, hmsg⟩ := herr
  refine ⟨⟨msg, hmsg⟩, ?_⟩
  intro F imports reg hdom hload
  refine ⟨msg, ?_⟩
  unfold loadDomains
  rw [hload]
  rw [if_neg Bool.false_ne_true]
  rw [hdom, hmsg]

/-- Witness for C3 at the two-domain cycle example. -/
theorem C3_witness :
    Relation.TransGen (depRel exampleCycle) "a" "a" ∧
    ((∃ msg, getEnabledDomains exampleCycle
        = Except.error (RegError.dependencyError msg)) ∧
     (∀ (F : Type) (imports : Imports F) (reg : Registry F),
       reg.domains = exampleCycle → reg.loaded = false →
       ∃ msg, loadDomains imports reg
         = (reg, some (RegError.dependencyError msg)))) := by
  have hab : depRel exampleCycle "a" "b" :=
    ⟨by decide, by decide, ⟨some true, ["b"], [], none⟩, by decide, by decide⟩
  have hba : depRel exampleCycle "b" "a" :=
    ⟨by decide, by decide, ⟨some true, ["a"], [], none⟩, by decide, by decide⟩
  have hcyc : Relation.TransGen (depRel exampleCycle) "a" "a" :=
    Relation.TransGen.head hab (Relation.TransGen.single hba)
  exact ⟨hcyc, C3_cycle_raises_dependencyError exampleCycle "a" hcyc⟩

/-- C6: for every domain map in which an enabled domain's `depends_on`
references a name absent from the map, `get_enabled_domains()` fails with a
`DependencyError`, and `load_domains()` on a not-yet-loaded registry over
that map aborts with the same error with no partial ordering produced and
the registry unchanged. -/
theorem C6_unknown_dependency_raises (domains : DomainMap)
    (name dep : String) (cfg : DomainConfig)
    (hlk : alookup domains name = some cfg)
    (hen : enabledD cfg = true)
    (hdep : dep ∈ cfg.depends_on)
    (hmiss : dep ∉ keys domains) :
    (∃ msg, getEnabledDomains domains
      = Except.error (RegError.dependencyError msg)) ∧
    (∀ (F : Type) (imports : Imports F) (reg : Registry F),
      reg.domains = domains → reg.loaded = false →
      ∃ msg, loadDomains imports reg
        = (reg, some (RegError.dependencyError msg))) := by
  have hnotok : ∀ result, getEnabledDomains domains ≠ Except.ok result := by
    intro result hok
    obtain ⟨hinv, hchk, hcomp⟩ := getEnabledDomains_ok hok
    have hden : isEnabled domains name = true := by
      simp [isEnabled, hlk, hen]
    have hd : name ∈ result := hcomp (name, cfg) (alookup_mem hlk) hen hden
    exact hmiss (hchk name hd cfg hlk dep hdep)
  have herr : ∃ msg, getEnabledDomains domains
      = Except.error (RegError.dependencyError msg) := by
    cases hge : getEnabledDomains domains with
    | ok r => exact absurd hge (hnotok r)
    | error e =>
      obtain ⟨msg, hmsg⟩ := getEnabledDomains_error_shape hge
      exact ⟨msg, by rw [hmsg]⟩
  obtain ⟨msg, hmsg⟩ := herr
  refine ⟨⟨msg, hmsg⟩, ?_⟩
  intro F imports reg hdom hload
  refine ⟨msg, ?_⟩
  unfold loadDomains
  rw [hload]
  rw [if_neg Bool.false_ne_true]
  rw [hdom, hmsg]

/-- Witness for C6 at the missing-dependency example. -/
theorem C6_witness :
    alookup exampleMissing "a" = some exampleMissingCfg ∧
    enabledD exampleMissingCfg = true ∧
    "missing" ∈ exampleMissingCfg.depends_on ∧
    "missing" ∉ keys exampleMissing ∧
    ((∃ msg, getEnabledDomains exampleMissing
        = Except.error (RegError.dependencyError msg)) ∧
     (∀ (F : Type) (imports : Imports F) (reg : Registry F),
       reg.domains = exampleMissing → reg.loaded = false →
       ∃ msg, loadDomains imports reg
         = (reg, some (RegError.dependencyError msg)))) :=
  ⟨by decide, by decide, by decide, by decide,
    C6_unknown_dependency_raises exampleMissing "a" "missing" exampleMissingCfg
      (by decide) (by decide) (by decide) (by decide)⟩

/-- C9 (implicit): a domain descriptor lacking the `enabled` key is treated
exactly like `enabled: false` — such a domain never appears in
`get_enabled_domains()` output, and replacing its missing flag by an
explicit `enabled: false` leaves `get_enabled_domains()` unchanged. -/
theorem C9_missing_enabled_is_disabled (domains : DomainMap) (name : String)
    (hnone : ∀ p ∈ domains, p.1 = name → p.2.enabled = none) :
    (∀ result, getEnabledDomains domains = Except.ok result → name ∉ result) ∧
    getEnabledDomains domains = getEnabledDomains (setEnabledFalse domains name) := by
  constructor
  · intro result hok hmem
    obtain ⟨hinv, -, -⟩ := getEnabledDomains_ok hok
    have hen := hinv.mem_enabled name hmem
    obtain ⟨cfg, hlk, hcen⟩ := isEnabled_iff.mp hen
    have hn := hnone (name, cfg) (alookup_mem hlk) rfl
    simp only at hn
    rw [enabledD, hn] at hcen
    cases hcen
  · exact equiv_getEnabledDomains (setEnabledFalse_equiv hnone)

/-- Witness for C9 at a map whose entry `x` lacks the enabled key. -/
theorem C9_witness :
    (∀ p ∈ exampleNoEnabled, p.1 = "x" → p.2.enabled = none) ∧
    ((∀ result, getEnabledDomains exampleNoEnabled = Except.ok result →
        "x" ∉ result) ∧
      getEnabledDomains exampleNoEnabled
        = getEnabledDomains (setEnabledFalse exampleNoEnabled "x")) :=
  ⟨by decide, C9_missing_enabled_is_disabled exampleNoEnabled "x" (by decide)⟩

/-- C10 (implicit): `get_enabled_domains()` never raises
`DomainNotFoundError` — the absent-domain branch of the resolver is
unreachable from this entry point, because top-level traversal starts from
map keys and every dependency name is membership-checked (raising
`DependencyError`) before the recursive call. -/
theorem C10_no_domainNotFound (domains : DomainMap) :
    ∀ msg, getEnabledDomains domains
      ≠ Except.error (RegError.domainNotFoundError msg) := by
  intro msg h
  obtain ⟨m, hm⟩ := getEnabledDomains_error_shape h
  cases hm

/-- C2 counterexample: the claim's "state unchanged on error" part fails —
after a `load_domains()` call that aborts on an import error, the
registry's definition list already holds the contributions of the domains
loaded before the failure, so it differs from the pre-call state. -/
theorem C2_counterexample :
    (loadDomains examplePartialImports exampleReg).2.isSome = true ∧
    (loadDomains examplePartialImports exampleReg).1.tool_definitions
      ≠ exampleReg.tool_definitions := by
  decide

/-- C2 (amended): if resolution succeeds but the import of some enabled
domain's module fails, `load_domains()` raises a `ConfigurationError` whose
message names the offending domain, its module path and the underlying
cause; the whole load aborts with the loaded flag still false and the
domain map untouched; and although the internal tables may retain the
contributions of domains imported before the failure, no partial registry
is observable: the get-style accessors re-run the load and raise the same
`ConfigurationError` instead of returning a partial table. -/
theorem C2_import_failure_aborts (F : Type) (imports : Imports F)
    (reg reg₁ : Registry F) (e : RegError) (order : List String)
    (hun : reg.loaded = false)
    (hres : getEnabledDomains reg.domains = Except.ok order)
    (h : loadDomains imports reg = (reg₁, some e)) :
    (∃ name cfg cause, name ∈ order ∧ alookup reg.domains name = some cfg ∧
      imports (modulePath name cfg) = Except.error cause ∧
      e = RegError.configurationError
        ("Failed to import domain '" ++ name ++ "' from "
          ++ moduleBase name cfg ++ ": " ++ cause)) ∧
    reg₁.loaded = false ∧ reg₁.domains = reg.domains ∧
    (getAllTools imports reg₁).2 = Except.error e ∧
    (getToolDefinitions imports reg₁).2 = Except.error e := by
  obtain ⟨hdom, hload⟩ := loadDomains_failure_state hun h
  have horder_keys : ∀ n ∈ order, n ∈ keys reg.domains := by
    intro n hn
    obtain ⟨hinv, -, -⟩ := getEnabledDomains_ok hres
    exact isEnabled_mem_keys (hinv.mem_enabled n hn)
  have hloop : (loadDomainsLoop imports reg.domains order reg).2 = some e := by
    unfold loadDomains at h
    rw [hun] at h
    rw [if_neg Bool.false_ne_true] at h
    rw [hres] at h
    dsimp only at h
    split at h
    · rename_i reg' e' hl
      rw [hl]
      exact congrArg Prod.snd h
    · simp at h
  have hshape := loadDomainsLoop_error imports reg.domains order reg e horder_keys hloop
  have hload2 : (loadDomains imports reg₁).2 = some e := by
    unfold loadDomains
    rw [hload]
    rw [if_neg Bool.false_ne_true]
    rw [hdom, hres]
    dsimp only
    have hstable := loadDomainsLoop_error_stable imports reg.domains order reg reg₁ hdom
    rw [hloop] at hstable
    cases hl2 : loadDomainsLoop imports reg.domains order reg₁ with
    | mk reg₂ oe =>
      rw [hl2] at hstable
      simp only at hstable
      rw [← hstable]
  refine ⟨hshape, hload, hdom, ?_, ?_⟩
  · unfold getAllTools
    rw [hload]
    rw [if_pos rfl]
    cases hld : loadDomains imports reg₁ with
    | mk reg₂ oe =>
      rw [hld] at hload2
      simp only at hload2
      rw [hload2]
  · unfold getToolDefinitions
    rw [hload]
    rw [if_pos rfl]
    cases hld : loadDomains imports reg₁ with
    | mk reg₂ oe =>
      rw [hld] at hload2
      simp only at hload2
      rw [hload2]

/-- Witness for C2 (amended) at the partially failing import example. -/
theorem C2_witness :
    exampleReg.loaded = false ∧
    getEnabledDomains exampleReg.domains = Except.ok ["a", "b"] ∧
    loadDomains examplePartialImports exampleReg
      = ((loadDomains examplePartialImports exampleReg).1,
        some (RegError.configurationError
          "Failed to import domain 'b' from src.domains.b: No module named b")) ∧
    ((∃ name cfg cause, name ∈ ["a", "b"] ∧
        alookup exampleReg.domains name = some cfg ∧
        examplePartialImports (modulePath name cfg) = Except.error cause ∧
        (RegError.configurationError
          "Failed to import domain 'b' from src.domains.b: No module named b")
          = RegError.configurationError
            ("Failed to import domain '" ++ name ++ "' from "
              ++ moduleBase name cfg ++ ": " ++ cause)) ∧
      (loadDomains examplePartialImports exampleReg).1.loaded = false ∧
      (loadDomains examplePartialImports exampleReg).1.domains
        = exampleReg.domains ∧
      (getAllTools examplePartialImports
        (loadDomains examplePartialImports exampleReg).1).2
        = Except.error (RegError.configurationError
          "Failed to import domain 'b' from src.domains.b: No module named b") ∧
      (getToolDefinitions examplePartialImports
        (loadDomains examplePartialImports exampleReg).1).2
        = Except.error (RegError.configurationError
          "Failed to import domain 'b' from src.domains.b: No module named b")) :=
  ⟨rfl, by decide, by decide,
    C2_import_failure_aborts Nat examplePartialImports exampleReg
      (loadDomains examplePartialImports exampleReg).1
      (RegError.configurationError
        "Failed to import domain 'b' from src.domains.b: No module named b")
      ["a", "b"] rfl (by decide) (by decide)⟩

/-- C4 counterexample: `load_domains()` is not unconditionally idempotent —
after a first call that fails on an import error the loaded flag is still
false, so a second call re-runs the import loop and mutates the registry
again (the definition list grows a duplicate entry), contradicting "the
second call ... returns without invoking the module-import mechanism or
modifying any registry state". -/
theorem C4_counterexample :
    (loadDomains examplePartialImports
      (loadDomains examplePartialImports exampleReg).1).1
      ≠ (loadDomains examplePartialImports exampleReg).1 := by
  decide

/-- C4 (amended): after a `load_domains()` call that completes successfully,
the loaded flag is set and any further `load_domains()` call returns the
registry unchanged with no error, for every import environment — so the
second call consults the import mechanism for no module — and `list_tools()`
returns the same output after the first and after any second call. -/
theorem C4_idempotent_after_success (F : Type) (imports : Imports F)
    (reg reg₁ : Registry F)
    (h : loadDomains imports reg = (reg₁, none)) :
    reg₁.loaded = true ∧
    (∀ imports₂ : Imports F, loadDomains imports₂ reg₁ = (reg₁, none)) ∧
    (∀ imports₂ : Imports F,
      listTools imports₂ reg₁ = (reg₁, Except.ok (reg₁.tools.map Prod.fst))) := by
  have hl := loadDomains_success_loaded h
  exact ⟨hl, fun i => loadDomains_loaded i hl, fun i => listTools_loaded i hl⟩

/-- Witness for C4 (amended) at a successful load. -/
theorem C4_witness :
    loadDomains exampleOkImports exampleReg = (exampleLoaded, none) ∧
    (exampleLoaded.loaded = true ∧
      (∀ imports₂ : Imports Nat,
        loadDomains imports₂ exampleLoaded = (exampleLoaded, none)) ∧
      (∀ imports₂ : Imports Nat,
        listTools imports₂ exampleLoaded
          = (exampleLoaded, Except.ok (exampleLoaded.tools.map Prod.fst)))) :=
  ⟨by decide,
    C4_idempotent_after_success Nat exampleOkImports exampleReg exampleLoaded
      (by decide)⟩

/-- C5: allow-list enforcement — for every tool name X such that no
configured domain both allow-lists X and gets a module exporting X (in its
TOOLS mapping or TOOL_DEFINITIONS list), after a successful `load_domains()`
from an empty registry the name X is absent from `get_all_tools()` and no
definition named X appears in `get_tool_definitions()`. -/
theorem C5_allowlist_enforcement (F : Type) (imports : Imports F)
    (reg reg₁ : Registry F) (X : String)
    (hempty_tools : reg.tools = [])
    (hempty_defs : reg.tool_definitions = [])
    (hX : ∀ p ∈ reg.domains, X ∈ p.2.tools → moduleLacks imports p.1 p.2 X = true)
    (h : loadDomains imports reg = (reg₁, none)) :
    X ∉ reg₁.tools.map Prod.fst ∧
    (∀ d ∈ reg₁.tool_definitions, d.name ≠ X) ∧
    getAllTools imports reg₁ = (reg₁, Except.ok reg₁.tools) ∧
    getToolDefinitions imports reg₁ = (reg₁, Except.ok reg₁.tool_definitions) := by
  have hl := loadDomains_success_loaded h
  unfold loadDomains at h
  split at h
  · have hr : reg₁ = reg := by
      have := congrArg Prod.fst h
      simpa using this.symm
    refine ⟨?_, ?_, getAllTools_loaded _ hl, getToolDefinitions_loaded _ hl⟩
    · rw [hr, hempty_tools]
      simp
    · rw [hr, hempty_defs]
      simp
  · split at h
    · simp at h
    · rename_i enabled hen
      split at h
      · simp at h
      · rename_i reg' hloop
        have hr : reg₁ = { reg' with loaded := true } := by
          have := congrArg Prod.fst h
          simpa using this.symm
        obtain ⟨ht, hd⟩ := loadDomainsLoop_allowlist imports reg.domains X hX
          enabled reg (by rw [hempty_tools]; simp) (by rw [hempty_defs]; simp)
        rw [hloop] at ht hd
        simp only at ht hd
        refine ⟨?_, ?_, getAllTools_loaded _ hl, getToolDefinitions_loaded _ hl⟩
        · rw [hr]
          exact ht
        · rw [hr]
          exact hd

/-- Witness for C5: the module of domain a exports "secret", which is not
in a's allow-list and is contributed by no domain, so it is registered
nowhere. -/
theorem C5_witness :
    exampleReg.tools = [] ∧
    exampleReg.tool_definitions = [] ∧
    (∀ p ∈ exampleReg.domains, "secret" ∈ p.2.tools →
      moduleLacks exampleOkImports p.1 p.2 "secret" = true) ∧
    loadDomains exampleOkImports exampleReg = (exampleLoaded, none) ∧
    ("secret" ∉ exampleLoaded.tools.map Prod.fst ∧
      (∀ d ∈ exampleLoaded.tool_definitions, d.name ≠ "secret") ∧
      getAllTools exampleOkImports exampleLoaded
        = (exampleLoaded, Except.ok exampleLoaded.tools) ∧
      getToolDefinitions exampleOkImports exampleLoaded
        = (exampleLoaded, Except.ok exampleLoaded.tool_definitions)) :=
  ⟨rfl, rfl, by decide, by decide,
    C5_allowlist_enforcement Nat exampleOkImports exampleReg exampleLoaded
      "secret" rfl rfl (by decide) (by decide)⟩

/-- C7: `get_openai_tools()` is a pure presentation transform of
`get_tool_definitions()`: same length, and the entry at every position is a
`type: "function"` envelope whose function field copies the corresponding
definition's name, description and parameters. -/
theorem C7_openai_envelope (F : Type) (imports : Imports F)
    (reg reg' : Registry F) (defs : List ToolDef)
    (h : getToolDefinitions imports reg = (reg', Except.ok defs)) :
    ∃ ts, getOpenaiTools imports reg = (reg', Except.ok ts) ∧
      ts.length = defs.length ∧
      (∀ (i : Nat) (d : ToolDef), defs[i]? = some d →
        ts[i]? = some ⟨"function", ⟨d.name, d.description, d.parameters⟩⟩) := by
  refine ⟨defs.map wrapOpenai, ?_, by simp, ?_⟩
  · unfold getOpenaiTools
    rw [h]
  · intro i d hd
    rw [List.getElem?_map, hd]
    rfl

/-- Witness for C7 at a loaded single-definition registry. -/
theorem C7_witness :
    getToolDefinitions exampleOkImports exampleDefsReg
      = (exampleDefsReg, Except.ok [⟨"n", "doc", "params"⟩]) ∧
    (∃ ts, getOpenaiTools exampleOkImports exampleDefsReg
        = (exampleDefsReg, Except.ok ts) ∧
      ts.length = ([⟨"n", "doc", "params"⟩] : List ToolDef).length ∧
      (∀ (i : Nat) (d : ToolDef), ([⟨"n", "doc", "params"⟩] : List ToolDef)[i]? = some d →
        ts[i]? = some ⟨"function", ⟨d.name, d.description, d.parameters⟩⟩)) :=
  ⟨by decide,
    C7_openai_envelope Nat exampleOkImports exampleDefsReg exampleDefsReg
      [⟨"n", "doc", "params"⟩] (by decide)⟩

/-- C8: on a loaded registry, `get_tool` with a name absent from the tool
table raises `ToolNotFoundError` and leaves the registry unchanged;
`get_domain_info` raises `DomainNotFoundError` exactly for names absent
from the domain map, returns the descriptor for present names, and never
consults the load state — it reads the parsed configuration only. -/
theorem C8_lookup_errors (F : Type) :
    (∀ (imports : Imports F) (reg : Registry F) (name : String),
      reg.loaded = true → alookup reg.tools name = none →
      getTool imports reg name
        = (reg, Except.error (RegError.toolNotFoundError
            ("Tool not found: " ++ name)))) ∧
    (∀ (reg : Registry F) (name : String),
      alookup reg.domains name = none →
      getDomainInfo reg name
        = Except.error (RegError.domainNotFoundError
            ("Domain not found: " ++ name))) ∧
    (∀ (reg : Registry F) (name : String) (cfg : DomainConfig),
      alookup reg.domains name = some cfg →
      getDomainInfo reg name = Except.ok cfg) ∧
    (∀ (domains : DomainMap) (tools tools' : List (String × F))
      (defs defs' : List ToolDef) (loaded loaded' : Bool) (name : String),
      getDomainInfo (Registry.mk domains tools defs loaded) name
        = getDomainInfo (Registry.mk domains tools' defs' loaded') name) := by
  refine ⟨?_, ?_, ?_, ?_⟩
  · intro imports reg name hl hn
    unfold getTool
    rw [hl]
    rw [if_neg (by decide : ¬(true = false))]
    rw [hn]
  · intro reg name hn
    unfold getDomainInfo
    rw [hn]
  · intro reg name cfg hc
    unfold getDomainInfo
    rw [hc]
  · intro domains tools tools' defs defs' loaded loaded' name
    unfold getDomainInfo
    rfl

/-- Witness for C8 at the loaded single-tool registry. -/
theorem C8_witness :
    getTool exampleOkImports exampleDefsReg "zzz"
      = (exampleDefsReg, Except.error (RegError.toolNotFoundError
          "Tool not found: zzz")) ∧
    getDomainInfo exampleDefsReg "zzz"
      = Except.error (RegError.domainNotFoundError "Domain not found: zzz") ∧
    getDomainInfo exampleReg "a"
      = Except.ok (⟨some true, [], ["t"], none⟩ : DomainConfig) ∧
    getDomainInfo (Registry.mk exampleDomains ([] : List (String × Nat)) [] false) "a"
      = getDomainInfo (Registry.mk exampleDomains [("n", 7)]
          [⟨"n", "doc", "params"⟩] true) "a" :=
  ⟨(C8_lookup_errors Nat).1 exampleOkImports exampleDefsReg "zzz" rfl (by decide),
    (C8_lookup_errors Nat).2.1 exampleDefsReg "zzz" (by decide),
    (C8_lookup_errors Nat).2.2.1 exampleReg "a" ⟨some true, [], ["t"], none⟩
      (by decide),
    (C8_lookup_errors Nat).2.2.2 exampleDomains [] [("n", 7)] []
      [⟨"n", "doc", "params"⟩] false true "a"⟩

end ToolRegistry
